import Mathlib

/-!
Formal model of `src/Inverse_Statistic.py`, function
`calculate_waiting_times_both_directions` (lines 122-162): for a price series
`data` and a list of `increments`, for each start index `i` the script computes
the first offset `j` at which `data[i+j]` crosses `data[i] + increment`
(direction `"increase"`) or `data[i] - increment` (direction `"decrease"`),
via `condition = data[i:] >= target` and `np.argmax(condition)` guarded by
`np.any(condition)`, with `np.inf` when no crossing exists.

Prices live in an arbitrary linearly ordered additive commutative group (the
real numbers of the script are an instance); a series is a `List α`;
`np.argmax` of a boolean mask is `List.findIdx id`; `np.any` is `List.any id`;
the Python results dict is an association list with overwrite-on-assignment
semantics.
-/

namespace InverseStatistic

/-- Second component of a key of the Python results dict: the string
`"increase"` or `"decrease"`. -/
inductive Direction where
  | increase : Direction
  | decrease : Direction
deriving DecidableEq

/-- One waiting-time entry: a finite offset (the value of `np.argmax`) or the
sentinel `np.inf`. -/
inductive WTime where
  | fin : ℕ → WTime
  | inf : WTime
deriving DecidableEq

/-- Python dict assignment `d[k] = v` on an association list: overwrite the
existing binding in place when the key is present, otherwise append a new
binding (insertion order is preserved, as for a Python dict). -/
def dictAssign {K V : Type} [DecidableEq K] (d : List (K × V)) (k : K) (v : V) :
    List (K × V) :=
  if d.any (fun p => decide (p.1 = k)) then
    d.map (fun p => if p.1 = k then (k, v) else p)
  else d ++ [(k, v)]

/-- Python dict lookup `d[k]` (first binding of the key, if any). -/
def dictLookup {K V : Type} [DecidableEq K] (d : List (K × V)) (k : K) : Option V :=
  (d.find? (fun p => decide (p.1 = k))).map Prod.snd

variable {α : Type} [LinearOrderedAddCommGroup α]

/-- Lines 141-146 of the source, for one start index `i`:
`target = data[i] + increment`, `condition = data[i:] >= target`, then
`np.argmax(condition)` when `np.any(condition)` holds, else `np.inf`. -/
def waiting_time_increase (data : List α) (increment : α) (i : ℕ) : WTime :=
  let target := data.getD i 0 + increment
  let condition := (data.drop i).map (fun x => decide (target ≤ x))
  if condition.any id then WTime.fin (condition.findIdx id) else WTime.inf

/-- Lines 153-158 of the source, for one start index `i`:
`target = data[i] - increment`, `condition = data[i:] <= target`, then
`np.argmax(condition)` when `np.any(condition)` holds, else `np.inf`. -/
def waiting_time_decrease (data : List α) (increment : α) (i : ℕ) : WTime :=
  let target := data.getD i 0 - increment
  let condition := (data.drop i).map (fun x => decide (x ≤ target))
  if condition.any id then WTime.fin (condition.findIdx id) else WTime.inf

/-- The loop `for i in range(n)` of lines 140-147: the array
`waiting_times_increase`, one entry per start index, in index order. -/
def waiting_times_increase (data : List α) (increment : α) : List WTime :=
  (List.range data.length).map (fun i => waiting_time_increase data increment i)

/-- The loop `for i in range(n)` of lines 152-159: the array
`waiting_times_decrease`, one entry per start index, in index order. -/
def waiting_times_decrease (data : List α) (increment : α) : List WTime :=
  (List.range data.length).map (fun i => waiting_time_decrease data increment i)

/-- Body of the loop `for increment in increments` (lines 137-160): assign
`results[(increment, "increase")]` then `results[(increment, "decrease")]`. -/
def assign_both (data : List α) (results : List ((α × Direction) × List WTime))
    (increment : α) : List ((α × Direction) × List WTime) :=
  dictAssign
    (dictAssign results (increment, Direction.increase)
      (waiting_times_increase data increment))
    (increment, Direction.decrease) (waiting_times_decrease data increment)

/-- Lines 134-162 of the source: loop over `increments`, assigning
`results[(increment, "increase")]` then `results[(increment, "decrease")]`,
starting from the empty dict `results = {}`. -/
def calculate_waiting_times_both_directions (data : List α) (increments : List α) :
    List ((α × Direction) × List WTime) :=
  increments.foldl (assign_both data) []

/-- Naive forward scan in the words of the spec, rising direction: the
smallest offset `j ≥ 1` with `data[i+j] ≥ data[i] + threshold`, scanning
`j = 1, …, n-1-i` in increasing order, and the unreachable sentinel exactly
when no such `j ≤ n-1-i` exists. -/
def naiveScanIncrease (data : List α) (threshold : α) (i : ℕ) : WTime :=
  match (List.range' 1 (data.length - 1 - i)).find?
      (fun j => decide (data.getD i 0 + threshold ≤ data.getD (i + j) 0)) with
  | some j => WTime.fin j
  | none => WTime.inf

/-- Naive forward scan in the words of the spec, falling direction: the
smallest offset `j ≥ 1` with `data[i+j] ≤ data[i] - threshold`, scanning
`j = 1, …, n-1-i` in increasing order, and the unreachable sentinel exactly
when no such `j ≤ n-1-i` exists. -/
def naiveScanDecrease (data : List α) (threshold : α) (i : ℕ) : WTime :=
  match (List.range' 1 (data.length - 1 - i)).find?
      (fun j => decide (data.getD (i + j) 0 ≤ data.getD i 0 - threshold)) with
  | some j => WTime.fin j
  | none => WTime.inf

/-- Lines 134-162 with the input array threaded as explicit state: every loop
iteration reads the series from the state component and writes only to the
results component; the source contains no assignment to `data`. -/
def calculate_waiting_times_state (data : List α) (increments : List α) :
    List ((α × Direction) × List WTime) × List α :=
  increments.foldl
    (fun st increment => (assign_both st.2 st.1 increment, st.2))
    ([], data)

/-- Value stored in the results dict under `(increment, d)`: the array built
by the loop of the corresponding direction. -/
def expected_entry (data : List α) (increment : α) : Direction → List WTime
  | Direction.increase => waiting_times_increase data increment
  | Direction.decrease => waiting_times_decrease data increment

/-! Helper lemmas. -/

theorem findIdx_id_map {β : Type} (q : β → Bool) (l : List β) :
    (l.map q).findIdx id = l.findIdx q := by
  induction l with
  | nil => rfl
  | cons a l ih => simp [List.findIdx_cons, ih]

theorem any_id_map {β : Type} (q : β → Bool) (l : List β) :
    (l.map q).any id = l.any q := by
  induction l with
  | nil => rfl
  | cons a l ih => simp [ih]

/-- Characterisation of `find?` over the offset range `[s, …, s+n-1]`: a
forward scan returns `some j` exactly for the smallest in-range `j`
satisfying the predicate. -/
theorem find?_range'_eq_some (p : ℕ → Bool) :
    ∀ (n s j : ℕ), (List.range' s n).find? p = some j ↔
      (s ≤ j ∧ j < s + n ∧ p j = true ∧ ∀ k, s ≤ k → k < j → p k = false) := by
  intro n
  induction n with
  | zero => intro s j; simp; omega
  | succ n ih =>
    intro s j
    rw [List.range'_succ]
    by_cases hs : p s
    · rw [List.find?_cons_of_pos _ hs]
      constructor
      · intro h
        injection h with h
        subst h
        exact ⟨le_refl s, by omega, hs, fun k hk1 hk2 => absurd hk1 (by omega)⟩
      · rintro ⟨h1, h2, h3, h4⟩
        by_cases hj : j = s
        · subst hj; rfl
        · have hcontra := h4 s (le_refl s) (by omega)
          rw [hs] at hcontra
          exact absurd hcontra (by simp)
    · rw [List.find?_cons_of_neg _ hs, ih (s + 1) j]
      constructor
      · rintro ⟨h1, h2, h3, h4⟩
        refine ⟨by omega, by omega, h3, fun k hk1 hk2 => ?_⟩
        rcases Nat.eq_or_lt_of_le hk1 with heq | hlt
        · subst heq; exact Bool.eq_false_iff.mpr hs
        · exact h4 k (by omega) hk2
      · rintro ⟨h1, h2, h3, h4⟩
        have hj : j ≠ s := by
          intro heq; subst heq; exact hs h3
        exact ⟨by omega, by omega, h3, fun k hk1 hk2 => h4 k (by omega) hk2⟩

theorem find?_range'_eq_none (p : ℕ → Bool) (n s : ℕ) :
    (List.range' s n).find? p = none ↔ ∀ k, s ≤ k → k < s + n → p k = false := by
  rw [List.find?_eq_none]
  constructor
  · intro h k hk1 hk2
    exact Bool.eq_false_iff.mpr (h k (List.mem_range'_1.mpr ⟨hk1, hk2⟩))
  · intro h x hx
    rcases List.mem_range'_1.mp hx with ⟨h1, h2⟩
    exact Bool.eq_false_iff.mp (h x h1 h2)

theorem getElem_drop_getD (data : List α) (i k : ℕ) (hk : k < (data.drop i).length) :
    (data.drop i).get ⟨k, hk⟩ = data.getD (i + k) 0 := by
  have hik : i + k < data.length := by
    have := List.length_drop i data
    omega
  rw [List.get_eq_getElem, List.getElem_drop, List.getD_eq_getElem?_getD,
    List.getElem?_eq_getElem hik]
  rfl

/-- Generic bridge: the `np.any` / `np.argmax` computation over the boolean
mask `(data.drop i).map q` agrees with a naive forward scan over the offsets
`1, …, n-1-i`, provided the mask is false at offset `0` (which holds for a
strictly positive threshold). -/
theorem argmax_eq_forward_scan (data : List α) (q : α → Bool) (i : ℕ)
    (hi : i < data.length) (h0 : q (data.getD i 0) = false) :
    (if ((data.drop i).map q).any id then
        WTime.fin (((data.drop i).map q).findIdx id)
      else WTime.inf)
    = match (List.range' 1 (data.length - 1 - i)).find?
          (fun j => q (data.getD (i + j) 0)) with
      | some j => WTime.fin j
      | none => WTime.inf := by
  rw [any_id_map, findIdx_id_map]
  have hlen : (data.drop i).length = data.length - i := List.length_drop i data
  by_cases h : (data.drop i).any q
  · rw [if_pos h]
    have hex : ∃ x ∈ data.drop i, q x := by simpa using h
    have hlt : (data.drop i).findIdx q < (data.drop i).length :=
      List.findIdx_lt_length.mpr hex
    have hq0 : q ((data.drop i).get ⟨(data.drop i).findIdx q, hlt⟩) = true := by
      simpa using @List.findIdx_getElem _ _ _ hlt
    rw [getElem_drop_getD] at hq0
    have hpos : 1 ≤ (data.drop i).findIdx q := by
      rcases Nat.eq_zero_or_pos ((data.drop i).findIdx q) with hz | hp
      · rw [hz] at hq0
        rw [Nat.add_zero] at hq0
        rw [hq0] at h0
        exact absurd h0 (by simp)
      · exact hp
    have hsome : (List.range' 1 (data.length - 1 - i)).find?
        (fun j => q (data.getD (i + j) 0)) = some ((data.drop i).findIdx q) := by
      rw [find?_range'_eq_some]
      refine ⟨hpos, by omega, hq0, fun k hk1 hk2 => ?_⟩
      have hklt : k < (data.drop i).length := by omega
      have hnot := List.not_of_lt_findIdx hk2
      have hgd : (data.drop i).get ⟨k, hklt⟩ = data.getD (i + k) 0 :=
        getElem_drop_getD data i k hklt
      simp only [List.get_eq_getElem] at hgd
      rw [hgd] at hnot
      simpa using hnot
    rw [hsome]
  · rw [if_neg h]
    have hall : ∀ x ∈ data.drop i, q x = false := by
      intro x hx
      cases hqx : q x
      · rfl
      · exact absurd (List.any_eq_true.mpr ⟨x, hx, hqx⟩) h
    have hnone : (List.range' 1 (data.length - 1 - i)).find?
        (fun j => q (data.getD (i + j) 0)) = none := by
      rw [find?_range'_eq_none]
      intro k hk1 hk2
      have hklt : k < (data.drop i).length := by omega
      have hmem : (data.drop i).get ⟨k, hklt⟩ ∈ data.drop i := List.get_mem _ _ hklt
      have := hall _ hmem
      rw [getElem_drop_getD] at this
      exact this
    rw [hnone]

theorem dictLookup_map_overwrite {K V : Type} [DecidableEq K] (k : K) (v : V) :
    ∀ d : List (K × V), d.any (fun p => decide (p.1 = k)) = true →
      dictLookup (d.map (fun p => if p.1 = k then (k, v) else p)) k = some v := by
  intro d
  induction d with
  | nil => simp
  | cons p d ih =>
    intro h
    by_cases hp : p.1 = k
    · simp [dictLookup, hp]
    · have htail : d.any (fun p => decide (p.1 = k)) = true := by
        simpa [hp] using h
      simpa [dictLookup, hp] using ih htail

theorem dictLookup_append_new {K V : Type} [DecidableEq K] (k : K) (v : V) :
    ∀ d : List (K × V), d.any (fun p => decide (p.1 = k)) = false →
      dictLookup (d ++ [(k, v)]) k = some v := by
  intro d
  induction d with
  | nil => simp [dictLookup]
  | cons p d ih =>
    intro h
    have hp : ¬(p.1 = k) := by
      intro hk
      simp [hk] at h
    have htail : d.any (fun p => decide (p.1 = k)) = false := by
      simpa [hp] using h
    simpa [dictLookup, hp] using ih htail

theorem dictLookup_dictAssign_self {K V : Type} [DecidableEq K]
    (d : List (K × V)) (k : K) (v : V) :
    dictLookup (dictAssign d k v) k = some v := by
  unfold dictAssign
  by_cases h : d.any (fun p => decide (p.1 = k))
  · rw [if_pos h]
    exact dictLookup_map_overwrite k v d h
  · rw [if_neg h]
    exact dictLookup_append_new k v d (Bool.eq_false_iff.mpr h)

theorem dictLookup_map_overwrite_ne {K V : Type} [DecidableEq K] (k k' : K) (v : V)
    (hne : k' ≠ k) :
    ∀ d : List (K × V),
      dictLookup (d.map (fun p => if p.1 = k then (k, v) else p)) k' =
        dictLookup d k' := by
  intro d
  induction d with
  | nil => rfl
  | cons p d ih =>
    by_cases hp : p.1 = k
    · have hpk : ¬(p.1 = k') := by rw [hp]; exact fun h => hne h.symm
      simpa [dictLookup, hp, hne.symm, hpk] using ih
    · by_cases hq : p.1 = k'
      · simp only [List.map_cons, if_neg hp]
        unfold dictLookup
        rw [List.find?_cons_of_pos _ (by simpa using hq),
          List.find?_cons_of_pos _ (by simpa using hq)]
      · simpa [dictLookup, hp, hq] using ih

theorem dictLookup_append_ne {K V : Type} [DecidableEq K] (k k' : K) (v : V)
    (hne : k' ≠ k) :
    ∀ d : List (K × V), dictLookup (d ++ [(k, v)]) k' = dictLookup d k' := by
  intro d
  induction d with
  | nil =>
    have hkk : ¬(k = k') := fun h => hne h.symm
    simp [dictLookup, hkk]
  | cons p d ih =>
    by_cases hq : p.1 = k'
    · simp [dictLookup, hq]
    · simpa [dictLookup, hq] using ih

theorem dictLookup_dictAssign_ne {K V : Type} [DecidableEq K]
    (d : List (K × V)) (k k' : K) (v : V) (hne : k' ≠ k) :
    dictLookup (dictAssign d k v) k' = dictLookup d k' := by
  unfold dictAssign
  by_cases h : d.any (fun p => decide (p.1 = k))
  · rw [if_pos h]
    exact dictLookup_map_overwrite_ne k k' v hne d
  · rw [if_neg h]
    exact dictLookup_append_ne k k' v hne d

theorem lookup_foldl_not_mem (data : List α) :
    ∀ (increments : List α) (init : List ((α × Direction) × List WTime))
      (t : α) (d : Direction), t ∉ increments →
      dictLookup (increments.foldl (assign_both data) init) (t, d) =
        dictLookup init (t, d) := by
  intro increments
  induction increments with
  | nil => intro init t d _; rfl
  | cons inc rest ih =>
    intro init t d ht
    have hne : t ≠ inc := fun h => ht (h ▸ List.mem_cons_self inc rest)
    rw [List.foldl_cons, ih _ t d (fun h => ht (List.mem_cons_of_mem _ h))]
    unfold assign_both
    rw [dictLookup_dictAssign_ne _ _ _ _ (fun h => hne (congrArg Prod.fst h)),
      dictLookup_dictAssign_ne _ _ _ _ (fun h => hne (congrArg Prod.fst h))]

theorem lookup_calc_mem (data : List α) :
    ∀ (increments : List α) (init : List ((α × Direction) × List WTime))
      (t : α) (d : Direction), t ∈ increments →
      dictLookup (increments.foldl (assign_both data) init) (t, d) =
        some (expected_entry data t d) := by
  intro increments
  induction increments with
  | nil => intro init t d ht; exact absurd ht (List.not_mem_nil t)
  | cons inc rest ih =>
    intro init t d ht
    rw [List.foldl_cons]
    by_cases hr : t ∈ rest
    · exact ih _ t d hr
    · have hti : t = inc := by
        rcases List.mem_cons.mp ht with h | h
        · exact h
        · exact absurd h hr
      subst hti
      rw [lookup_foldl_not_mem data rest _ t d hr]
      unfold assign_both
      cases d with
      | decrease =>
        rw [dictLookup_dictAssign_self]
        rfl
      | increase =>
        have hne2 : ((t, Direction.increase) : α × Direction) ≠
            (t, Direction.decrease) := by
          intro h
          simp at h
        rw [dictLookup_dictAssign_ne _ _ _ _ hne2, dictLookup_dictAssign_self]
        rfl

theorem length_expected_entry (data : List α) (t : α) (d : Direction) :
    (expected_entry data t d).length = data.length := by
  cases d <;>
    simp [expected_entry, waiting_times_increase, waiting_times_decrease]

/-! Claim theorems. -/

/-- C1: for every series, every positive threshold, every direction and every
start index `i`, the computed waiting time equals the result of a naive
forward scan: the smallest offset `j ≥ 1` with
`data[i+j] ≥ data[i] + threshold` (increase) or
`data[i+j] ≤ data[i] - threshold` (decrease), and the unreachable sentinel
exactly when no such `j ≤ n-1-i` exists. -/
theorem waiting_time_eq_naive_scan (data : List α) (threshold : α) (i : ℕ)
    (hpos : 0 < threshold) (hi : i < data.length) :
    waiting_time_increase data threshold i = naiveScanIncrease data threshold i ∧
    waiting_time_decrease data threshold i = naiveScanDecrease data threshold i := by
  constructor
  · have h0 : decide (data.getD i 0 + threshold ≤ data.getD i 0) = false :=
      decide_eq_false (not_le.mpr (lt_add_of_pos_right _ hpos))
    exact argmax_eq_forward_scan data
      (fun x => decide (data.getD i 0 + threshold ≤ x)) i hi h0
  · have h0 : decide (data.getD i 0 ≤ data.getD i 0 - threshold) = false :=
      decide_eq_false (not_le.mpr (sub_lt_self _ hpos))
    exact argmax_eq_forward_scan data
      (fun x => decide (x ≤ data.getD i 0 - threshold)) i hi h0

/-- Witness for C1 at the series `[0, 1, 3]`, threshold `2`, start index `0`. -/
theorem waiting_time_eq_naive_scan_witness :
    (0 : ℤ) < 2 ∧ (0 < ([0, 1, 3] : List ℤ).length) ∧
    (waiting_time_increase ([0, 1, 3] : List ℤ) 2 0 =
        naiveScanIncrease ([0, 1, 3] : List ℤ) 2 0 ∧
      waiting_time_decrease ([0, 1, 3] : List ℤ) 2 0 =
        naiveScanDecrease ([0, 1, 3] : List ℤ) 2 0) :=
  ⟨by decide, by decide,
    waiting_time_eq_naive_scan ([0, 1, 3] : List ℤ) 2 0 (by decide) (by decide)⟩

/-- C4: for every series, every positive threshold and both directions, the
entry at the last start index `n-1` (no future samples) is the unreachable
sentinel. -/
theorem last_index_unreachable (data : List α) (threshold : α)
    (hpos : 0 < threshold) (hne : data ≠ []) :
    waiting_time_increase data threshold (data.length - 1) = WTime.inf ∧
    waiting_time_decrease data threshold (data.length - 1) = WTime.inf := by
  have hlen : 0 < data.length := List.length_pos.mpr hne
  have hi : data.length - 1 < data.length := by omega
  have hz : data.length - 1 - (data.length - 1) = 0 := by omega
  constructor
  · have h0 : decide (data.getD (data.length - 1) 0 + threshold ≤
        data.getD (data.length - 1) 0) = false :=
      decide_eq_false (not_le.mpr (lt_add_of_pos_right _ hpos))
    have key := argmax_eq_forward_scan data
      (fun x => decide (data.getD (data.length - 1) 0 + threshold ≤ x))
      (data.length - 1) hi h0
    rw [hz] at key
    exact key
  · have h0 : decide (data.getD (data.length - 1) 0 ≤
        data.getD (data.length - 1) 0 - threshold) = false :=
      decide_eq_false (not_le.mpr (sub_lt_self _ hpos))
    have key := argmax_eq_forward_scan data
      (fun x => decide (x ≤ data.getD (data.length - 1) 0 - threshold))
      (data.length - 1) hi h0
    rw [hz] at key
    exact key

/-- Witness for C4 at the series `[5, 7]` with threshold `1`. -/
theorem last_index_unreachable_witness :
    (0 : ℤ) < 1 ∧ ([5, 7] : List ℤ) ≠ [] ∧
    (waiting_time_increase ([5, 7] : List ℤ) 1 (([5, 7] : List ℤ).length - 1) =
        WTime.inf ∧
      waiting_time_decrease ([5, 7] : List ℤ) 1 (([5, 7] : List ℤ).length - 1) =
        WTime.inf) :=
  ⟨by decide, by decide, last_index_unreachable ([5, 7] : List ℤ) 1 (by decide) (by decide)⟩

/-- C5: the crossing comparison is inclusive: a future value exactly equal to
`data[i] + threshold` (increase) or `data[i] - threshold` (decrease) counts as
a crossing; in particular, when `data[i+2]` equals the target exactly and
offset `1` does not qualify, the result is offset `2`, not unreachable and
not `3`. -/
theorem inclusive_crossing (data : List α) (threshold : α) (i : ℕ)
    (hpos : 0 < threshold) (hlen : i + 2 < data.length) :
    (data.getD (i + 2) 0 = data.getD i 0 + threshold →
      data.getD (i + 1) 0 < data.getD i 0 + threshold →
      waiting_time_increase data threshold i = WTime.fin 2) ∧
    (data.getD (i + 2) 0 = data.getD i 0 - threshold →
      data.getD i 0 - threshold < data.getD (i + 1) 0 →
      waiting_time_decrease data threshold i = WTime.fin 2) := by
  have hi : i < data.length := by omega
  constructor
  · intro h2 h1
    have h0 : decide (data.getD i 0 + threshold ≤ data.getD i 0) = false :=
      decide_eq_false (not_le.mpr (lt_add_of_pos_right _ hpos))
    have key := argmax_eq_forward_scan data
      (fun x => decide (data.getD i 0 + threshold ≤ x)) i hi h0
    have hsome : (List.range' 1 (data.length - 1 - i)).find?
        (fun j => decide (data.getD i 0 + threshold ≤ data.getD (i + j) 0)) =
          some 2 := by
      rw [find?_range'_eq_some]
      refine ⟨by omega, by omega, ?_, fun k hk1 hk2 => ?_⟩
      · exact decide_eq_true (le_of_eq h2.symm)
      · have hk : k = 1 := by omega
        subst hk
        exact decide_eq_false (not_le.mpr h1)
    rw [hsome] at key
    exact key
  · intro h2 h1
    have h0 : decide (data.getD i 0 ≤ data.getD i 0 - threshold) = false :=
      decide_eq_false (not_le.mpr (sub_lt_self _ hpos))
    have key := argmax_eq_forward_scan data
      (fun x => decide (x ≤ data.getD i 0 - threshold)) i hi h0
    have hsome : (List.range' 1 (data.length - 1 - i)).find?
        (fun j => decide (data.getD (i + j) 0 ≤ data.getD i 0 - threshold)) =
          some 2 := by
      rw [find?_range'_eq_some]
      refine ⟨by omega, by omega, ?_, fun k hk1 hk2 => ?_⟩
      · exact decide_eq_true (le_of_eq h2)
      · have hk : k = 1 := by omega
        subst hk
        exact decide_eq_false (not_le.mpr h1)
    rw [hsome] at key
    exact key

/-- Witness for C5 at the series `[0, 1, 2, -2]`, threshold `2`: the value at
offset `2` equals the rising target `0 + 2` exactly, and the value at offset
`3` equals the falling target `0 - 2` exactly. -/
theorem inclusive_crossing_witness :
    (0 : ℤ) < 2 ∧ 0 + 2 < ([0, 1, 2, -2] : List ℤ).length ∧
    (([0, 1, 2, -2] : List ℤ).getD (0 + 2) 0 =
        ([0, 1, 2, -2] : List ℤ).getD 0 0 + 2 ∧
      ([0, 1, 2, -2] : List ℤ).getD (0 + 1) 0 <
        ([0, 1, 2, -2] : List ℤ).getD 0 0 + 2) ∧
    waiting_time_increase ([0, 1, 2, -2] : List ℤ) 2 0 = WTime.fin 2 :=
  ⟨by decide, by decide, ⟨by decide, by decide⟩,
    (inclusive_crossing ([0, 1, 2, -2] : List ℤ) 2 0 (by decide) (by decide)).1
      (by decide) (by decide)⟩

/-- C6: monotonicity in the threshold for the increase direction: for any two
positive thresholds with `t1 < t2`, either both offsets are finite with the
offset for `t2` at least the offset for `t1`, or the result for `t2` is
unreachable (this also covers `t1` unreachable, since a crossing for `t2` is
a crossing for `t1`). -/
theorem threshold_monotone_increase (data : List α) (i : ℕ) (t1 t2 : α)
    (hpos : 0 < t1) (h12 : t1 < t2) :
    (∃ j1 j2, waiting_time_increase data t1 i = WTime.fin j1 ∧
        waiting_time_increase data t2 i = WTime.fin j2 ∧ j1 ≤ j2) ∨
    waiting_time_increase data t2 i = WTime.inf := by
  simp only [waiting_time_increase]
  rw [any_id_map, any_id_map, findIdx_id_map, findIdx_id_map]
  by_cases h2 : (data.drop i).any (fun x => decide (data.getD i 0 + t2 ≤ x))
  · left
    have himp : ∀ x ∈ data.drop i,
        (fun x => decide (data.getD i 0 + t2 ≤ x)) x →
          (fun x => decide (data.getD i 0 + t1 ≤ x)) x := by
      intro x _ hx
      have hx2 : data.getD i 0 + t2 ≤ x := of_decide_eq_true hx
      exact decide_eq_true (le_trans (by simp [le_of_lt h12]) hx2)
    have h1 : (data.drop i).any (fun x => decide (data.getD i 0 + t1 ≤ x)) := by
      rcases List.any_eq_true.mp h2 with ⟨x, hx, hqx⟩
      exact List.any_eq_true.mpr ⟨x, hx, himp x hx hqx⟩
    refine ⟨(data.drop i).findIdx (fun x => decide (data.getD i 0 + t1 ≤ x)),
      (data.drop i).findIdx (fun x => decide (data.getD i 0 + t2 ≤ x)),
      ?_, ?_, ?_⟩
    · rw [if_pos h1]
    · rw [if_pos h2]
    · exact List.findIdx_le_findIdx himp
  · right
    rw [if_neg h2]

/-- Witness for C6 at the series `[0, 1, 3]`, start index `0`, thresholds
`1 < 2`. -/
theorem threshold_monotone_increase_witness :
    (0 : ℤ) < 1 ∧ (1 : ℤ) < 2 ∧
    ((∃ j1 j2, waiting_time_increase ([0, 1, 3] : List ℤ) 1 0 = WTime.fin j1 ∧
        waiting_time_increase ([0, 1, 3] : List ℤ) 2 0 = WTime.fin j2 ∧ j1 ≤ j2) ∨
      waiting_time_increase ([0, 1, 3] : List ℤ) 2 0 = WTime.inf) :=
  ⟨by decide, by decide,
    threshold_monotone_increase ([0, 1, 3] : List ℤ) 0 1 2 (by decide) (by decide)⟩

/-- C10: because the scan starts at the start index itself (`data[i:]`) and
the comparison is inclusive, any threshold `≤ 0` yields waiting time `0` at
every start index, in both directions, for every non-empty series: the
crossing is found at the start point itself. -/
theorem nonpositive_threshold_zero (data : List α) (threshold : α) (i : ℕ)
    (hth : threshold ≤ 0) (hi : i < data.length) :
    waiting_time_increase data threshold i = WTime.fin 0 ∧
    waiting_time_decrease data threshold i = WTime.fin 0 := by
  have hdrop : data.drop i = data.get ⟨i, hi⟩ :: data.drop (i + 1) := by
    rw [List.get_eq_getElem]
    exact List.drop_eq_getElem_cons hi
  have hgd : data.getD i 0 = data.get ⟨i, hi⟩ := by
    rw [List.get_eq_getElem, List.getD_eq_getElem?_getD, List.getElem?_eq_getElem hi]
    rfl
  constructor
  · have hq : decide (data.getD i 0 + threshold ≤ data.get ⟨i, hi⟩) = true := by
      rw [← hgd]
      exact decide_eq_true (by simpa using hth)
    simp only [waiting_time_increase, hdrop, List.map_cons, hq, List.any_cons,
      List.findIdx_cons, id, Bool.true_or, if_true, cond_true]
  · have hq : decide (data.get ⟨i, hi⟩ ≤ data.getD i 0 - threshold) = true := by
      rw [← hgd]
      exact decide_eq_true (by simpa using hth)
    simp only [waiting_time_decrease, hdrop, List.map_cons, hq, List.any_cons,
      List.findIdx_cons, id, Bool.true_or, if_true, cond_true]

/-- Witness for C10 at the series `[4, 9]`, threshold `0`, start index `1`. -/
theorem nonpositive_threshold_zero_witness :
    (0 : ℤ) ≤ 0 ∧ 1 < ([4, 9] : List ℤ).length ∧
    (waiting_time_increase ([4, 9] : List ℤ) 0 1 = WTime.fin 0 ∧
      waiting_time_decrease ([4, 9] : List ℤ) 0 1 = WTime.fin 0) :=
  ⟨by decide, by decide,
    nonpositive_threshold_zero ([4, 9] : List ℤ) 0 1 (by decide) (by decide)⟩

/-- C7: for every series of length `n` and every threshold list, the result
maps each `(threshold, direction)` pair — with direction ranging over exactly
increase and decrease — to a sequence of exactly `n` waiting-time entries, in
index order: the entry at position `i` is the waiting time for start index
`i`. -/
theorem matrix_shape (data : List α) (increments : List α) (t : α)
    (d : Direction) (ht : t ∈ increments) :
    ∃ l, dictLookup (calculate_waiting_times_both_directions data increments)
        (t, d) = some l ∧
      l.length = data.length ∧
      ∀ i, i < data.length → l.getD i WTime.inf =
        (match d with
         | Direction.increase => waiting_time_increase data t i
         | Direction.decrease => waiting_time_decrease data t i) := by
  refine ⟨expected_entry data t d, lookup_calc_mem data increments [] t d ht,
    length_expected_entry data t d, ?_⟩
  intro i hi
  cases d with
  | increase =>
    simp only [expected_entry, waiting_times_increase]
    rw [List.getD_eq_getElem?_getD, List.getElem?_map, List.getElem?_range hi]
    rfl
  | decrease =>
    simp only [expected_entry, waiting_times_decrease]
    rw [List.getD_eq_getElem?_getD, List.getElem?_map, List.getElem?_range hi]
    rfl

/-- Witness for C7 at the series `[0, 1]`, threshold list `[1]`, direction
increase. -/
theorem matrix_shape_witness :
    (1 : ℤ) ∈ ([1] : List ℤ) ∧
    (∃ l, dictLookup
        (calculate_waiting_times_both_directions ([0, 1] : List ℤ) [1])
        (1, Direction.increase) = some l ∧
      l.length = ([0, 1] : List ℤ).length ∧
      ∀ i, i < ([0, 1] : List ℤ).length → l.getD i WTime.inf =
        (match Direction.increase with
         | Direction.increase => waiting_time_increase ([0, 1] : List ℤ) 1 i
         | Direction.decrease => waiting_time_decrease ([0, 1] : List ℤ) 1 i)) :=
  ⟨by decide, matrix_shape ([0, 1] : List ℤ) [1] 1 Direction.increase (by decide)⟩

/-- C2 counterexample: the claim says a threshold `≤ 0` (or a duplicate) is
rejected at configuration time and no waiting-time matrix is produced; the
code performs no validation: with threshold `0 ≤ 0` the run completes with a
full matrix, and a duplicated threshold likewise completes. -/
theorem no_threshold_rejection_counterexample :
    dictLookup (calculate_waiting_times_both_directions ([1, 2] : List ℤ) [0])
        (0, Direction.increase) = some [WTime.fin 0, WTime.fin 0] ∧
    dictLookup (calculate_waiting_times_both_directions ([1, 2] : List ℤ) [1, 1])
        (1, Direction.increase) = some [WTime.fin 1, WTime.inf] := by
  decide

/-- C2 (amended): no configuration-time threshold validation exists: a
nonpositive (or duplicated) threshold is accepted, the run completes, and the
result still holds a full length-`n` sequence for that threshold in each
direction. -/
theorem nonpositive_threshold_accepted (data : List α) (increments : List α)
    (t : α) (ht : t ∈ increments) (hnp : t ≤ 0) (d : Direction) :
    ∃ l, dictLookup (calculate_waiting_times_both_directions data increments)
        (t, d) = some l ∧ l.length = data.length :=
  ⟨expected_entry data t d, lookup_calc_mem data increments [] t d ht,
    length_expected_entry data t d⟩

/-- Witness for the amended C2 at the series `[1, 2]`, threshold list `[0]`. -/
theorem nonpositive_threshold_accepted_witness :
    (0 : ℤ) ∈ ([0] : List ℤ) ∧ (0 : ℤ) ≤ 0 ∧
    (∃ l, dictLookup
        (calculate_waiting_times_both_directions ([1, 2] : List ℤ) [0])
        (0, Direction.decrease) = some l ∧
      l.length = ([1, 2] : List ℤ).length) :=
  ⟨by decide, by decide,
    nonpositive_threshold_accepted ([1, 2] : List ℤ) [0] 0 (by decide) (by decide)
      Direction.decrease⟩

/-- C3 counterexample: the claim says the computation fails on a zero-length
series with an `EmptyInput` error; the code performs no such check: on the
empty series it completes and returns a matrix whose sequences are empty. -/
theorem empty_input_no_failure_counterexample :
    calculate_waiting_times_both_directions ([] : List ℤ) [1] =
      [((1, Direction.increase), []), ((1, Direction.decrease), [])] := by
  decide

/-- C3 (amended): the computation never fails: for every series (the empty
one included) and every configured threshold and direction it returns a
sequence of length `n`; in particular the zero-length series yields empty
sequences rather than an error. -/
theorem computation_total (data : List α) (increments : List α) (t : α)
    (d : Direction) (ht : t ∈ increments) :
    ∃ l, dictLookup (calculate_waiting_times_both_directions data increments)
        (t, d) = some l ∧ l.length = data.length :=
  ⟨expected_entry data t d, lookup_calc_mem data increments [] t d ht,
    length_expected_entry data t d⟩

/-- Witness for the amended C3 at the empty series, threshold list `[2]`. -/
theorem computation_total_witness :
    (2 : ℤ) ∈ ([2] : List ℤ) ∧
    (∃ l, dictLookup
        (calculate_waiting_times_both_directions ([] : List ℤ) [2])
        (2, Direction.increase) = some l ∧
      l.length = ([] : List ℤ).length) :=
  ⟨by decide,
    computation_total ([] : List ℤ) [2] 2 Direction.increase (by decide)⟩

/-- C8: determinism: two runs of the computation on identical inputs (same
series values, same threshold list) produce identical output matrices. -/
theorem deterministic_runs (data1 data2 increments1 increments2 : List α)
    (hd : data1 = data2) (hinc : increments1 = increments2) :
    calculate_waiting_times_both_directions data1 increments1 =
      calculate_waiting_times_both_directions data2 increments2 := by
  subst hd
  subst hinc
  rfl

/-- Witness for C8 at the series `[3, 1]`, threshold list `[1]`. -/
theorem deterministic_runs_witness :
    ([3, 1] : List ℤ) = [3, 1] ∧ ([1] : List ℤ) = [1] ∧
    calculate_waiting_times_both_directions ([3, 1] : List ℤ) [1] =
      calculate_waiting_times_both_directions ([3, 1] : List ℤ) [1] :=
  ⟨rfl, rfl, deterministic_runs ([3, 1] : List ℤ) [3, 1] [1] [1] rfl rfl⟩

theorem state_foldl (data : List α) :
    ∀ (increments : List α) (init : List ((α × Direction) × List WTime)),
      increments.foldl
          (fun st increment => (assign_both st.2 st.1 increment, st.2))
          (init, data) =
        (increments.foldl (assign_both data) init, data) := by
  intro increments
  induction increments with
  | nil => intro init; rfl
  | cons inc rest ih =>
    intro init
    rw [List.foldl_cons, List.foldl_cons]
    exact ih (assign_both data init inc)

/-- C9: the input series is never mutated: after the computation, the series
component of the state equals the input, element for element, and the results
component is exactly the matrix of the plain computation. -/
theorem input_series_unchanged (data : List α) (increments : List α) :
    (calculate_waiting_times_state data increments).2 = data ∧
    (calculate_waiting_times_state data increments).1 =
      calculate_waiting_times_both_directions data increments := by
  unfold calculate_waiting_times_state calculate_waiting_times_both_directions
  rw [state_foldl data increments []]
  exact ⟨rfl, rfl⟩

end InverseStatistic
